import Mathlib

/-!
Verification of the directive extractor, toolchain flag builder, token
reconstructor and run-handle cleanup of an inline-C testing library.

The embedding translates the Rust sources:
  * `src/run.rs`    — `run`, `collect_environment_variables`, `collect_options`,
                      `command_add_compiler_flags`, `command_add_output_file`;
  * `src/assert.rs` — `Assert::drop`;
  * `macros/src/lib.rs` — `reconstruct`.

Strings are modelled as `List Char` (the byte/char sequence of the text).
The two regular expressions of `run.rs` are deterministic (every quantified
class excludes its follow character), so their leftmost, non-overlapping
scan is embedded as an explicit matcher plus a left-to-right scanner.
Character classes (`\s`, `\w`, Rust `trim`/`is_ascii_whitespace`) are
modelled on their ASCII fragment, which is exact for ASCII inputs.
-/

/-- Rust `char::is_ascii_whitespace`: space, `\t`, `\n`, form feed, `\r`
(used by `str::split_ascii_whitespace` in `get_env_flags`). -/
def asciiWs (c : Char) : Bool :=
  c == ' ' || c == '\t' || c == '\n' || c == '\x0c' || c == '\r'

/-- The regex class `\s` (ASCII fragment): space, `\t`, `\n`, vertical tab,
form feed, `\r`. -/
def regexWs (c : Char) : Bool :=
  c == ' ' || c == '\t' || c == '\n' || c == '\x0b' || c == '\x0c' || c == '\r'

/-- Rust `char::is_whitespace` (ASCII fragment), used by `str::trim`. -/
def rustWs (c : Char) : Bool :=
  c == ' ' || c == '\t' || c == '\n' || c == '\x0b' || c == '\x0c' || c == '\r'

/-- The regex class `[^:\n\r]` for the `variable_name` capture of
`collect_environment_variables` (run.rs:139). -/
def keyChar (c : Char) : Bool :=
  !(c == ':' || c == '\n' || c == '\r')

/-- The regex class `[^"]` for the `variable_value` capture (run.rs:139). -/
def nonQuote (c : Char) : Bool :=
  !(c == '"')

/-- The regex class `\w` (ASCII fragment) for the option capture of
`collect_options` (run.rs:171). -/
def wordChar (c : Char) : Bool :=
  c.isAlphanum || c == '_'

/-- Rust `str::trim` (ASCII whitespace fragment): drop whitespace from both
ends. -/
def trimChars (l : List Char) : List Char :=
  ((l.dropWhile rustWs).reverse.dropWhile rustWs).reverse

/-- Match a literal character sequence at the head of the input, returning
the remainder on success. -/
def dropLit : List Char → List Char → Option (List Char)
  | [], l => some l
  | _ :: _, [] => none
  | p :: ps, c :: cs => if c = p then dropLit ps cs else none

/-- The literal `#inline_c_rs ` that opens both directive regexes
(run.rs:139 and run.rs:171). -/
def markerV : List Char := "#inline_c_rs ".data

/-- The environment prefix `INLINE_C_RS_` (run.rs:135). -/
def markerE : List Char := "INLINE_C_RS_".data

/-- Matcher for the value-form directive regex
`#inline_c_rs (?P<variable_name>[^:\n\r]+):\s*"(?P<variable_value>[^"]+)"`
(run.rs:138-141) at the head of the input.  Returns the two captures
(raw name, value) and the remaining input.  Each quantified class of the
regex excludes the character that must follow it, so the regex is
deterministic and this matcher computes its unique match at this position. -/
def matchVal (l : List Char) : Option ((List Char × List Char) × List Char) :=
  match dropLit markerV l with
  | none => none
  | some r1 =>
    let key := r1.takeWhile keyChar
    if key = [] then none else
    match r1.dropWhile keyChar with
    | ':' :: r3 =>
      match r3.dropWhile regexWs with
      | '"' :: r5 =>
        let v := r5.takeWhile nonQuote
        if v = [] then none else
        match r5.dropWhile nonQuote with
        | '"' :: r7 => some ((key, v), r7)
        | _ => none
      | _ => none
    | _ => none

/-- Matcher for the option-form directive regex
`#inline_c_rs (?P<variable_name>\w+)` (run.rs:170-171) at the head of the
input. -/
def matchOpt (l : List Char) : Option (List Char × List Char) :=
  match dropLit markerV l with
  | none => none
  | some r1 =>
    let w := r1.takeWhile wordChar
    if w = [] then none else some (w, r1.dropWhile wordChar)

/-- Left-to-right scan with a matcher `m`: at each position try `m`; on a
match record the capture and resume after the match, otherwise keep the
character and advance by one.  This is the leftmost, non-overlapping match
semantics shared by `Regex::captures_iter` and `Regex::replace_all` with
the empty replacement: the first component lists the captures in order,
the second is the text with every matched substring deleted.  The `fuel`
argument makes the recursion structural; `scanCh` supplies enough fuel. -/
def scanF (m : List Char → Option (α × List Char)) : Nat → List Char → List α × List Char
  | 0, l => ([], l)
  | fuel + 1, l =>
    match m l with
    | some (a, rest) =>
      let p := scanF m fuel rest
      (a :: p.1, p.2)
    | none =>
      match l with
      | [] => ([], [])
      | c :: t =>
        let p := scanF m fuel t
        (p.1, c :: p.2)

/-- Scan a whole text with matcher `m`. -/
def scanCh (m : List Char → Option (α × List Char)) (l : List Char) : List α × List Char :=
  scanF m (l.length + 1) l

theorem dropLit_length {p l r : List Char} (h : dropLit p l = some r) :
    r.length + p.length = l.length := by
  induction p generalizing l with
  | nil => simp [dropLit] at h; simp [h]
  | cons x ps ih =>
    cases l with
    | nil => simp [dropLit] at h
    | cons c cs =>
      simp only [dropLit] at h
      split at h
      · have := ih h
        simp [List.length_cons]
        omega
      · exact absurd h (by simp)

theorem dropLit_append (p l : List Char) : dropLit p (p ++ l) = some l := by
  induction p with
  | nil => simp [dropLit]
  | cons x ps ih => simp [dropLit, ih]

theorem length_dropWhile_le' (p : Char → Bool) (l : List Char) :
    (l.dropWhile p).length ≤ l.length := by
  induction l with
  | nil => simp [List.dropWhile]
  | cons c t ih =>
    simp only [List.dropWhile]
    split
    · exact Nat.le_trans ih (Nat.le_succ _)
    · simp

theorem matchVal_rest_lt {l : List Char} {kv : List Char × List Char} {r : List Char}
    (h : matchVal l = some (kv, r)) : r.length < l.length := by
  simp only [matchVal] at h
  rcases h1 : dropLit markerV l with _ | r1
  · simp [h1] at h
  · simp only [h1] at h
    have hm : r1.length + markerV.length = l.length := dropLit_length h1
    have hmpos : 0 < markerV.length := by simp [markerV]
    split at h
    · exact absurd h (by simp)
    · rcases h2 : r1.dropWhile keyChar with _ | ⟨c3, r3pre⟩ <;> simp only [h2] at h
      · exact absurd h (by simp)
      · have hr3 : (c3 :: r3pre).length ≤ r1.length := by
          rw [← h2]; exact length_dropWhile_le' _ _
        split at h
        · rename_i r3 heq
          rcases heq' : heq with _
          -- the pattern `':' :: r3` binds r3 := r3pre with c3 = ':'
          rcases h3 : r3.dropWhile regexWs with _ | ⟨c5, r5pre⟩ <;> simp only [h3] at h
          · exact absurd h (by simp)
          · split at h
            · rename_i r5 heq5
              split at h
              · exact absurd h (by simp)
              · rcases h4 : r5.dropWhile nonQuote with _ | ⟨c7, r7pre⟩ <;> simp only [h4] at h
                · exact absurd h (by simp)
                · split at h
                  · rename_i r7 heq7
                    have hr : r = r7 := by
                      have := h
                      simp at this
                      exact this.2.symm
                    have hr5 : (c5 :: r5pre).length ≤ r3.length := by
                      rw [← h3]; exact length_dropWhile_le' _ _
                    have hr7 : (c7 :: r7pre).length ≤ r5.length := by
                      rw [← h4]; exact length_dropWhile_le' _ _
                    have e5 : c5 :: r5pre = '"' :: r5 := heq5
                    have e7 : c7 :: r7pre = '"' :: r7 := heq7
                    have l5 : r5.length + 1 ≤ r3.length := by
                      have := hr5; rw [e5] at this; simpa using this
                    have l7 : r7.length + 1 ≤ r5.length := by
                      have := hr7; rw [e7] at this; simpa using this
                    have l3 : r3.length + 1 ≤ r1.length := by
                      have := hr3
                      have e3 : c3 :: r3pre = ':' :: r3 := heq
                      rw [e3] at this; simpa using this
                    subst hr
                    omega
                  · exact absurd h (by simp)
            · exact absurd h (by simp)
        · exact absurd h (by simp)

theorem matchOpt_rest_lt {l : List Char} {w : List Char} {r : List Char}
    (h : matchOpt l = some (w, r)) : r.length < l.length := by
  simp only [matchOpt] at h
  rcases h1 : dropLit markerV l with _ | r1
  · simp [h1] at h
  · simp only [h1] at h
    have hm : r1.length + markerV.length = l.length := dropLit_length h1
    have hmpos : 0 < markerV.length := by simp [markerV]
    split at h
    · exact absurd h (by simp)
    · have hr : r = r1.dropWhile wordChar := by
        have := h; simp at this; exact this.2.symm
      have : (r1.dropWhile wordChar).length ≤ r1.length := length_dropWhile_le' _ _
      subst hr
      omega

theorem scanF_congr {α : Type} (m : List Char → Option (α × List Char))
    (hm : ∀ l a r, m l = some (a, r) → r.length < l.length) :
    ∀ f1 : Nat, ∀ f2 l, l.length < f1 → l.length < f2 →
      scanF m f1 l = scanF m f2 l := by
  intro f1
  induction f1 with
  | zero => intro f2 l h1 _; omega
  | succ f ih =>
    intro f2 l h1 h2
    cases f2 with
    | zero => omega
    | succ g =>
      simp only [scanF]
      rcases h : m l with _ | ⟨a, rest⟩
      · cases l with
        | nil => simp
        | cons c t =>
          have : t.length < f := by simp at h1; omega
          have h2' : t.length < g := by simp at h2; omega
          simp only []
          rw [ih g t this h2']
      · have hlt := hm l a rest h
        have : rest.length < f := by omega
        have h2' : rest.length < g := by omega
        simp only []
        rw [ih g rest this h2']

theorem scanCh_nil {α : Type} (m : List Char → Option (α × List Char))
    (hm : ∀ l a r, m l = some (a, r) → r.length < l.length) :
    scanCh m [] = ([], []) := by
  have hnone : m [] = none := by
    rcases h : m [] with _ | ⟨a, r⟩
    · rfl
    · have := hm [] a r h; simp at this
  simp [scanCh, scanF, hnone]

theorem scanCh_cons_none {α : Type} (m : List Char → Option (α × List Char))
    {c : Char} {t : List Char} (h : m (c :: t) = none) :
    scanCh m (c :: t) = ((scanCh m t).1, c :: (scanCh m t).2) := by
  simp [scanCh, scanF, h]

theorem scanCh_some {α : Type} (m : List Char → Option (α × List Char))
    (hm : ∀ l a r, m l = some (a, r) → r.length < l.length)
    {l : List Char} {a : α} {rest : List Char} (h : m l = some (a, rest)) :
    scanCh m l = (a :: (scanCh m rest).1, (scanCh m rest).2) := by
  have hlt := hm l a rest h
  have step : scanF m (l.length + 1) l
      = (a :: (scanF m l.length rest).1, (scanF m l.length rest).2) := by
    simp only [scanF, h]
  have conv1 : scanF m l.length rest = scanF m (rest.length + 1) rest :=
    scanF_congr m hm l.length (rest.length + 1) rest hlt (by omega)
  simp only [scanCh, step, conv1]

/-- The variable map of `collect_environment_variables` (a `HashMap` in the
source), modelled by its lookup function. -/
def VarMap : Type := List Char → Option (List Char)

/-- `HashMap::insert`. -/
def updVar (m : VarMap) (k v : List Char) : VarMap :=
  fun x => if x = k then some v else m x

/-- Insert a list of pairs in order (later inserts win). -/
def insertAll (m : VarMap) (ps : List (List Char × List Char)) : VarMap :=
  ps.foldl (fun acc p => updVar acc p.1 p.2) m

/-- The environment-derived pairs of `collect_environment_variables`
(run.rs:146-154): keep the variables whose name starts with `INLINE_C_RS_`,
stripping the prefix. -/
def envDerived (env : List (List Char × List Char)) : List (List Char × List Char) :=
  env.filterMap (fun p =>
    if markerE.isPrefixOf p.1 then some (p.1.drop markerE.length, p.2) else none)

/-- `collect_environment_variables` (run.rs:134-166): build the variable map
from prefixed process environment variables first, then from the value-form
directive captures (trimmed name, value) in match order; return the program
with every matched directive substring deleted, together with the map.
The process environment is passed as the `env` parameter. -/
def collect_environment_variables (env : List (List Char × List Char))
    (program : List Char) : List Char × VarMap :=
  let s := scanCh matchVal program
  (s.2, insertAll (insertAll (fun _ => none) (envDerived env))
          (s.1.map (fun kv => (trimChars kv.1, kv.2))))

/-- `collect_options` (run.rs:168-183): collect the trimmed option-form
captures and delete their matches from the program. -/
def collect_options (program : List Char) : List Char × List (List Char) :=
  let s := scanCh matchOpt program
  (s.2, s.1.map trimChars)

theorem matchVal_none_of_head {l : List Char} (h : l.head? ≠ some '#') :
    matchVal l = none := by
  cases l with
  | nil => rfl
  | cons c t =>
    have hc : c ≠ '#' := by simpa using h
    simp only [matchVal, markerV]
    simp [dropLit, hc]

theorem matchOpt_none_of_head {l : List Char} (h : l.head? ≠ some '#') :
    matchOpt l = none := by
  cases l with
  | nil => rfl
  | cons c t =>
    have hc : c ≠ '#' := by simpa using h
    simp only [matchOpt, markerV]
    simp [dropLit, hc]

theorem scanCh_id {α : Type} (m : List Char → Option (α × List Char))
    (hm : ∀ l a r, m l = some (a, r) → r.length < l.length)
    {l : List Char} (h : ∀ s, s <:+ l → s ≠ [] → m s = none) :
    scanCh m l = ([], l) := by
  induction l with
  | nil => exact scanCh_nil m hm
  | cons c t ih =>
    have hc : m (c :: t) = none := h (c :: t) (List.suffix_refl _) (by simp)
    rw [scanCh_cons_none m hc]
    have ht : scanCh m t = ([], t) := by
      apply ih
      intro s hs hne
      exact h s (hs.trans (List.suffix_cons c t)) hne
    simp [ht]

theorem scanCh_append_skip {α : Type} (m : List Char → Option (α × List Char))
    (_hm : ∀ l a r, m l = some (a, r) → r.length < l.length)
    {pre rest : List Char}
    (h : ∀ s, s <:+ pre → s ≠ [] → m (s ++ rest) = none) :
    scanCh m (pre ++ rest) = ((scanCh m rest).1, pre ++ (scanCh m rest).2) := by
  induction pre with
  | nil => simp
  | cons c t ih =>
    have hc : m (c :: (t ++ rest)) = none := by
      have := h (c :: t) (List.suffix_refl _) (by simp)
      simpa using this
    have ht := ih (fun s hs hne => h s (hs.trans (List.suffix_cons c t)) hne)
    show scanCh m (c :: (t ++ rest)) = ((scanCh m rest).1, (c :: t) ++ (scanCh m rest).2)
    rw [scanCh_cons_none m hc, ht]
    simp

/-- A character list whose members are all different from `#` yields no
directive match at any of its suffixes (with any continuation), for a
matcher that fails whenever the head is not `#`. -/
theorem suffix_cond_of_noHash {α : Type} {m : List Char → Option (α × List Char)}
    (hnh : ∀ l, l.head? ≠ some '#' → m l = none)
    {pre : List Char} (hpre : '#' ∉ pre) (rest : List Char) :
    ∀ s, s <:+ pre → s ≠ [] → m (s ++ rest) = none := by
  intro s hs hne
  cases s with
  | nil => exact absurd rfl hne
  | cons c t =>
    apply hnh
    have hc : c ∈ pre := hs.subset (by simp)
    have : c ≠ '#' := fun h => hpre (h ▸ hc)
    simpa using this

theorem scanCh_id_of_noHash {α : Type} {m : List Char → Option (α × List Char)}
    (hm : ∀ l a r, m l = some (a, r) → r.length < l.length)
    (hnh : ∀ l, l.head? ≠ some '#' → m l = none)
    {l : List Char} (hl : '#' ∉ l) :
    scanCh m l = ([], l) := by
  apply scanCh_id m hm
  intro s hs hne
  have := suffix_cond_of_noHash hnh hl [] s hs hne
  simpa using this

theorem takeWhile_dropWhile_append (p : Char → Bool) (a b : List Char)
    (ha : ∀ c ∈ a, p c = true) (hb : ∀ c, b.head? = some c → p c = false) :
    (a ++ b).takeWhile p = a ∧ (a ++ b).dropWhile p = b := by
  induction a with
  | nil =>
    cases b with
    | nil => simp
    | cons c t =>
      have := hb c rfl
      simp [List.takeWhile, List.dropWhile, this]
  | cons x xs ih =>
    have hx : p x = true := ha x (by simp)
    have ih' := ih (fun c hc => ha c (by simp [hc]))
    simp [List.takeWhile, List.dropWhile, hx, ih'.1, ih'.2]

theorem matchVal_at_dir {key ws value post : List Char}
    (hk_ne : key ≠ []) (hk : ∀ c ∈ key, keyChar c = true)
    (hws : ∀ c ∈ ws, regexWs c = true)
    (hv_ne : value ≠ []) (hv : ∀ c ∈ value, nonQuote c = true) :
    matchVal (markerV ++ (key ++ ':' :: (ws ++ '"' :: (value ++ '"' :: post))))
      = some ((key, value), post) := by
  have h1 := dropLit_append markerV (key ++ ':' :: (ws ++ '"' :: (value ++ '"' :: post)))
  have hkey := takeWhile_dropWhile_append keyChar key
      (':' :: (ws ++ '"' :: (value ++ '"' :: post))) hk
      (by intro c hc; simp at hc; subst hc; decide)
  have hws2 := takeWhile_dropWhile_append regexWs ws
      ('"' :: (value ++ '"' :: post)) hws
      (by intro c hc; simp at hc; subst hc; decide)
  have hval := takeWhile_dropWhile_append nonQuote value
      ('"' :: post) hv
      (by intro c hc; simp at hc; subst hc; decide)
  simp only [matchVal, h1, hkey.1, hkey.2, hws2.2, hval.1, hval.2,
    if_neg hk_ne, if_neg hv_ne]

/-- The scan of a text holding exactly one well-formed value directive whose
surroundings are free of `#`. -/
theorem scan_single_dir {pre key ws value post : List Char}
    (hpre : '#' ∉ pre) (hpost : '#' ∉ post)
    (hk_ne : key ≠ []) (hk : ∀ c ∈ key, keyChar c = true)
    (hws : ∀ c ∈ ws, regexWs c = true)
    (hv_ne : value ≠ []) (hv : ∀ c ∈ value, nonQuote c = true) :
    scanCh matchVal
        (pre ++ (markerV ++ (key ++ ':' :: (ws ++ '"' :: (value ++ '"' :: post)))))
      = ([(key, value)], pre ++ post) := by
  have hm : ∀ l a r, matchVal l = some (a, r) → r.length < l.length :=
    fun _ _ _ h => matchVal_rest_lt h
  have hdir := @matchVal_at_dir key ws value post hk_ne hk hws hv_ne hv
  have hposts : scanCh matchVal post = ([], post) :=
    scanCh_id_of_noHash hm (fun _ h => matchVal_none_of_head h) hpost
  have hmid : scanCh matchVal
      (markerV ++ (key ++ ':' :: (ws ++ '"' :: (value ++ '"' :: post))))
      = ([(key, value)], post) := by
    rw [scanCh_some matchVal hm hdir, hposts]
  rw [scanCh_append_skip matchVal hm
    (suffix_cond_of_noHash (fun _ h => matchVal_none_of_head h) hpre _), hmid]

theorem updVar_same (m : VarMap) (k v : List Char) : updVar m k v k = some v := by
  simp [updVar]

/-- Claim C4 (amended): with the directive the only place a `#` occurs, a
nonempty value and a whitespace-trimmed key, extraction maps the key to the
value and deletes exactly the directive substring. -/
theorem claim_C4_amended (env : List (List Char × List Char))
    (pre key ws value post : List Char)
    (hpre : '#' ∉ pre) (hpost : '#' ∉ post)
    (hk_ne : key ≠ []) (hk : ∀ c ∈ key, keyChar c = true)
    (htrim : trimChars key = key)
    (hws : ∀ c ∈ ws, regexWs c = true)
    (hv_ne : value ≠ []) (hv : ∀ c ∈ value, nonQuote c = true) :
    (collect_environment_variables env
        (pre ++ (markerV ++ (key ++ ':' :: (ws ++ '"' :: (value ++ '"' :: post)))))).1
      = pre ++ post
    ∧ (collect_environment_variables env
        (pre ++ (markerV ++ (key ++ ':' :: (ws ++ '"' :: (value ++ '"' :: post)))))).2 key
      = some value := by
  have hscan := scan_single_dir hpre hpost hk_ne hk hws hv_ne hv
  constructor
  · simp [collect_environment_variables, hscan]
  · simp only [collect_environment_variables, hscan, List.map_cons, List.map_nil, htrim]
    exact updVar_same _ key value

/-- The concrete input refuting claim C4 as stated: the text contains the
value-form directive occurrence `#inline_c_rs A: "v"` (key `A`, value `v`),
but an earlier marker's greedy value capture swallows it. -/
def cexC4 : List Char := "#inline_c_rs B: \"x #inline_c_rs A: \"v\"".data

/-- Claim C4 is false as stated: `cexC4` contains the directive occurrence
`#inline_c_rs A: "v"` (its key `A` has no colon, newline or carriage
return; its value `v` has no double quote), yet the extracted Variable Set
does not map `A` to `v`, and the cleaned text is not the input with that
occurrence deleted. -/
theorem claim_C4_cex :
    cexC4 = "#inline_c_rs B: \"x ".data ++ "#inline_c_rs A: \"v\"".data
    ∧ (collect_environment_variables [] cexC4).2 "A".data = none
    ∧ (collect_environment_variables [] cexC4).1
        ≠ "#inline_c_rs B: \"x ".data := by
  refine ⟨by decide, by decide, by decide⟩

theorem claim_C4_amended_witness :
    (collect_environment_variables []
        ("int x; ".data ++ (markerV ++ ("FOO".data ++ ':' ::
          ([' '] ++ '"' :: ("bar baz".data ++ '"' :: "\nint y;".data)))))).1
      = "int x; ".data ++ "\nint y;".data
    ∧ (collect_environment_variables []
        ("int x; ".data ++ (markerV ++ ("FOO".data ++ ':' ::
          ([' '] ++ '"' :: ("bar baz".data ++ '"' :: "\nint y;".data)))))).2 "FOO".data
      = some "bar baz".data :=
  claim_C4_amended [] "int x; ".data "FOO".data [' '] "bar baz".data "\nint y;".data
    (by decide) (by decide) (by decide) (by decide) (by decide) (by decide)
    (by decide) (by decide)

theorem envDerived_single (k v1 : List Char) :
    envDerived [(markerE ++ k, v1)] = [(k, v1)] := by
  have hpre : markerE.isPrefixOf (markerE ++ k) = true := by
    rw [List.isPrefixOf_iff_prefix]
    exact List.prefix_append _ _
  simp [envDerived, hpre, List.drop_left]

/-- Claim C5: a process environment variable `INLINE_C_RS_K = V1` populates
the Variable Set with `K → V1`, but a source directive for the same key `K`
with value `V2` wins: the final map holds `V2`. -/
theorem claim_C5 (k v1 pre ws v2 post : List Char)
    (hpre : '#' ∉ pre) (hpost : '#' ∉ post)
    (hk_ne : k ≠ []) (hk : ∀ c ∈ k, keyChar c = true)
    (htrim : trimChars k = k)
    (hws : ∀ c ∈ ws, regexWs c = true)
    (hv_ne : v2 ≠ []) (hv : ∀ c ∈ v2, nonQuote c = true) :
    insertAll (fun _ => none) (envDerived [(markerE ++ k, v1)]) k = some v1
    ∧ (collect_environment_variables [(markerE ++ k, v1)]
        (pre ++ (markerV ++ (k ++ ':' :: (ws ++ '"' :: (v2 ++ '"' :: post)))))).2 k
      = some v2 := by
  constructor
  · rw [envDerived_single]
    simp [insertAll, updVar]
  · have hscan := scan_single_dir hpre hpost hk_ne hk hws hv_ne hv
    simp only [collect_environment_variables, hscan, List.map_cons, List.map_nil, htrim]
    exact updVar_same _ k v2

theorem claim_C5_witness :
    insertAll (fun _ => none) (envDerived [(markerE ++ "FOO".data, "v1".data)]) "FOO".data
      = some "v1".data
    ∧ (collect_environment_variables [(markerE ++ "FOO".data, "v1".data)]
        ("".data ++ (markerV ++ ("FOO".data ++ ':' ::
          ([' '] ++ '"' :: ("v2".data ++ '"' :: "".data)))))).2 "FOO".data
      = some "v2".data :=
  claim_C5 "FOO".data "v1".data "".data [' '] "v2".data "".data
    (by decide) (by decide) (by decide) (by decide) (by decide) (by decide)
    (by decide) (by decide)

theorem wordChar_not_ws {c : Char} (h : wordChar c = true) : rustWs c = false := by
  cases hx : rustWs c
  · rfl
  · have hws := hx
    simp only [rustWs, Bool.or_eq_true, beq_iff_eq] at hws
    rcases hws with ((((h1 | h1) | h1) | h1) | h1) | h1 <;>
      (subst h1; exact absurd h (by decide))

theorem wordChar_ne_hash {c : Char} (h : wordChar c = true) : c ≠ '#' := by
  intro he
  subst he
  exact absurd h (by decide)

theorem trimChars_eq_self {l : List Char} (h : ∀ c ∈ l, rustWs c = false) :
    trimChars l = l := by
  have h1 : l.dropWhile rustWs = l := by
    cases l with
    | nil => rfl
    | cons c t => simp [List.dropWhile, h c (by simp)]
  have h2 : l.reverse.dropWhile rustWs = l.reverse := by
    cases hr : l.reverse with
    | nil => rfl
    | cons c t =>
      have hc : c ∈ l := by
        have hm : c ∈ l.reverse := by rw [hr]; simp
        simpa using hm
      simp [List.dropWhile, h c hc]
  simp [trimChars, h1, h2]

theorem matchOpt_at_dir {w rest : List Char} (hw_ne : w ≠ [])
    (hw : ∀ c ∈ w, wordChar c = true)
    (hhead : ∀ c, rest.head? = some c → wordChar c = false) :
    matchOpt (markerV ++ (w ++ rest)) = some (w, rest) := by
  have h1 := dropLit_append markerV (w ++ rest)
  have hword := takeWhile_dropWhile_append wordChar w rest hw hhead
  simp only [matchOpt, h1, hword.1, hword.2, if_neg hw_ne]

/-- Claim C6: when a `#inline_c_rs KEY` occurrence is not matched by the
value-form regex (hypothesis `hnoval`, e.g. malformed or empty quoting),
the value pass leaves the text unchanged, and the option pass — which runs
on the value-stripped text — records the leading word characters `w` of the
key as a boolean option and deletes only `#inline_c_rs w`. -/
theorem claim_C6 (env : List (List Char × List Char)) (pre w rest : List Char)
    (hpre : '#' ∉ pre) (hrest : '#' ∉ rest)
    (hw_ne : w ≠ []) (hw : ∀ c ∈ w, wordChar c = true)
    (hhead : ∀ c, rest.head? = some c → wordChar c = false)
    (hnoval : matchVal (markerV ++ (w ++ rest)) = none) :
    (collect_environment_variables env (pre ++ (markerV ++ (w ++ rest)))).1
      = pre ++ (markerV ++ (w ++ rest))
    ∧ (collect_options
        ((collect_environment_variables env (pre ++ (markerV ++ (w ++ rest)))).1)).2
      = [w]
    ∧ (collect_options
        ((collect_environment_variables env (pre ++ (markerV ++ (w ++ rest)))).1)).1
      = pre ++ rest := by
  have hmVal : ∀ l (a : List Char × List Char) r, matchVal l = some (a, r) → r.length < l.length :=
    fun _ _ _ h => matchVal_rest_lt h
  have hmOpt : ∀ l (a : List Char) r, matchOpt l = some (a, r) → r.length < l.length :=
    fun _ _ _ h => matchOpt_rest_lt h
  have hcons : markerV = '#' :: "inline_c_rs ".data := rfl
  have hTid : scanCh matchVal (markerV ++ (w ++ rest)) = ([], markerV ++ (w ++ rest)) := by
    apply scanCh_id matchVal hmVal
    intro s hs hne
    rw [hcons, List.cons_append] at hs
    rw [List.suffix_cons_iff] at hs
    rcases hs with hs | hs
    · rw [hs, ← List.cons_append, ← hcons]
      exact hnoval
    · cases s with
      | nil => exact absurd rfl hne
      | cons c t =>
        apply matchVal_none_of_head
        have hc : c ∈ "inline_c_rs ".data ++ (w ++ rest) := hs.subset (by simp)
        have hcne : c ≠ '#' := by
          rcases List.mem_append.mp hc with h1 | h2
          · intro he; subst he; exact absurd h1 (by decide)
          · rcases List.mem_append.mp h2 with h3 | h4
            · exact wordChar_ne_hash (hw c h3)
            · intro he; subst he; exact hrest h4
        simpa using hcne
  have hval_scan : scanCh matchVal (pre ++ (markerV ++ (w ++ rest)))
      = ([], pre ++ (markerV ++ (w ++ rest))) := by
    rw [scanCh_append_skip matchVal hmVal
      (suffix_cond_of_noHash (fun _ h => matchVal_none_of_head h) hpre _), hTid]
  have hclean1 : (collect_environment_variables env (pre ++ (markerV ++ (w ++ rest)))).1
      = pre ++ (markerV ++ (w ++ rest)) := by
    simp [collect_environment_variables, hval_scan]
  have hrest_id : scanCh matchOpt rest = ([], rest) :=
    scanCh_id_of_noHash hmOpt (fun _ h => matchOpt_none_of_head h) hrest
  have hopt_scan : scanCh matchOpt (pre ++ (markerV ++ (w ++ rest)))
      = ([w], pre ++ rest) := by
    rw [scanCh_append_skip matchOpt hmOpt
      (suffix_cond_of_noHash (fun _ h => matchOpt_none_of_head h) hpre _),
      scanCh_some matchOpt hmOpt (matchOpt_at_dir hw_ne hw hhead), hrest_id]
  have htrim : trimChars w = w :=
    trimChars_eq_self (fun c hc => wordChar_not_ws (hw c hc))
  refine ⟨hclean1, ?_, ?_⟩
  · rw [hclean1]
    simp [collect_options, hopt_scan, htrim]
  · rw [hclean1]
    simp [collect_options, hopt_scan]

theorem claim_C6_witness :
    (collect_environment_variables [] ([] ++ (markerV ++ ("FOO".data ++ ": \"\"".data)))).1
      = [] ++ (markerV ++ ("FOO".data ++ ": \"\"".data))
    ∧ (collect_options
        ((collect_environment_variables [] ([] ++ (markerV ++ ("FOO".data ++ ": \"\"".data)))).1)).2
      = ["FOO".data]
    ∧ (collect_options
        ((collect_environment_variables [] ([] ++ (markerV ++ ("FOO".data ++ ": \"\"".data)))).1)).1
      = [] ++ ": \"\"".data :=
  claim_C6 [] [] "FOO".data ": \"\"".data (by decide) (by decide) (by decide)
    (by decide) (by decide) (by decide)

/-- Does `pat` occur at the head of `l`? -/
def startsList : List Char → List Char → Bool
  | [], _ => true
  | _ :: _, [] => false
  | p :: ps, c :: cs => p == c && startsList ps cs

/-- Rust `str::contains(pat)`: does `pat` occur as a contiguous substring? -/
def occursIn (pat : List Char) : List Char → Bool
  | [] => pat.isEmpty
  | c :: t => startsList pat (c :: t) || occursIn pat t

/-- Rust `str::split_ascii_whitespace`: maximal runs of non-whitespace
characters, in order (fuelled; `split_ascii_whitespace` supplies enough
fuel for the recursion to be structural). -/
def splitWsF : Nat → List Char → List (List Char)
  | 0, _ => []
  | fuel + 1, l =>
    match l.dropWhile asciiWs with
    | [] => []
    | c :: t =>
      (c :: t.takeWhile (fun x => !asciiWs x))
        :: splitWsF fuel (t.dropWhile (fun x => !asciiWs x))

def split_ascii_whitespace (l : List Char) : List (List Char) :=
  splitWsF (l.length + 1) l

/-- `Option::ok_or_else` with the (already evaluated, pure) closure value:
`Some(v)` becomes `Ok(v)`, `None` becomes `Err(e)`. -/
def okOrElse (o : Option α) (e : β) : Except β α :=
  match o with
  | some a => Except.ok a
  | none => Except.error e

/-- `Result::unwrap_or_default` at `String`: the `Err` payload is discarded
and the empty string returned. -/
def exceptUnwrapOrDefault (r : Except β (List Char)) : List Char :=
  match r with
  | Except.ok s => s
  | Except.error _ => []

/-- The `get_env_flags` closure of `command_add_compiler_flags`
(run.rs:209-218): `variables.get(name).map(to_string)
.ok_or_else(|| env::var(name)).unwrap_or_default()
.split_ascii_whitespace()`.  The process environment lookup `env::var` is
the parameter `envv`; note that its value only ever lands in the `Err`
payload of the `ok_or_else`, which `unwrap_or_default` discards. -/
def get_env_flags (varMap envv : VarMap) (name : List Char) : List (List Char) :=
  split_ascii_whitespace (exceptUnwrapOrDefault (okOrElse (varMap name) (envv name)))

/-- `command_add_compiler_flags` (run.rs:203-238) as the list of arguments
it appends to the compiler command, in order: CFLAGS, CPPFLAGS, CXXFLAGS
(each whitespace-split), the shared-library flag when `is_shared`
(`/LD` for windows+msvc targets, `-shared` otherwise), then each
whitespace-split LDFLAGS entry wrapped as `-Wl,<arg>`. -/
def command_add_compiler_flags (varMap envv : VarMap) (is_shared : Bool)
    (target : List Char) : List (List Char) :=
  get_env_flags varMap envv "CFLAGS".data
  ++ get_env_flags varMap envv "CPPFLAGS".data
  ++ get_env_flags varMap envv "CXXFLAGS".data
  ++ (if is_shared then
        (if occursIn "windows".data target && occursIn "msvc".data target then
          ["/LD".data]
        else
          ["-shared".data])
      else [])
  ++ (get_env_flags varMap envv "LDFLAGS".data).map (fun a => "-Wl,".data ++ a)

/-- The forced suffix of the output artifact temp path (run.rs:62-67):
`.dll` for a shared build on a windows target, `.exe` for an executable on
a windows target, none otherwise. -/
def output_temp_suffix (target : List Char) (is_shared : Bool) : Option (List Char) :=
  if occursIn "windows".data target && is_shared then some ".dll".data
  else if occursIn "windows".data target then some ".exe".data
  else none

/-- Claim C1: the flag values are split on whitespace and appended in the
order CFLAGS, CPPFLAGS, CXXFLAGS (third conjunct), and the Variable-Set
path works (second conjunct); but the claimed live-environment fallback
does not: with `CFLAGS` absent from the Variable Set and present in the
process environment as `-O2`, no flag at all is appended (first and fourth
conjuncts), because `ok_or_else` turns the `env::var` result into the
`Err` payload that `unwrap_or_default` throws away (run.rs:212-214). -/
theorem claim_C1_env_fallback_dropped :
    get_env_flags (fun _ => none)
        (fun n => if n = "CFLAGS".data then some "-O2".data else none) "CFLAGS".data
      = []
    ∧ get_env_flags (updVar (fun _ => none) "CFLAGS".data "-O2 -g".data)
        (fun _ => none) "CFLAGS".data
      = ["-O2".data, "-g".data]
    ∧ command_add_compiler_flags
        (updVar (updVar (updVar (fun _ => none) "CFLAGS".data "-a".data)
          "CPPFLAGS".data "-b".data) "CXXFLAGS".data "-c".data)
        (fun _ => none) false "x86_64-unknown-linux-gnu".data
      = ["-a".data, "-b".data, "-c".data]
    ∧ command_add_compiler_flags (fun _ => none)
        (fun n => if n = "CFLAGS".data then some "-O2".data else none) false
        "x86_64-unknown-linux-gnu".data
      = [] := by
  refine ⟨by decide, by decide, by decide, by decide⟩

/-- Claim C8: with the SHARED option set, a non-windows target forces no
output suffix and gets the Unix `-shared` flag; a windows target forces a
`.dll` suffix and gets `/LD` when the target also contains `msvc`, and
`-shared` otherwise. -/
theorem claim_C8 (varMap envv : VarMap) (target : List Char) :
    (occursIn "windows".data target = false →
      output_temp_suffix target true = none
      ∧ "-shared".data ∈ command_add_compiler_flags varMap envv true target)
    ∧ (occursIn "windows".data target = true →
      output_temp_suffix target true = some ".dll".data
      ∧ (occursIn "msvc".data target = true →
          "/LD".data ∈ command_add_compiler_flags varMap envv true target)
      ∧ (occursIn "msvc".data target = false →
          "-shared".data ∈ command_add_compiler_flags varMap envv true target)) := by
  constructor
  · intro h
    constructor
    · simp [output_temp_suffix, h]
    · simp [command_add_compiler_flags, h]
  · intro h
    refine ⟨by simp [output_temp_suffix, h], ?_, ?_⟩
    · intro hm
      simp [command_add_compiler_flags, h, hm]
    · intro hm
      simp [command_add_compiler_flags, h, hm]

theorem claim_C8_witness :
    (output_temp_suffix "x86_64-unknown-linux-gnu".data true = none
      ∧ "-shared".data ∈ command_add_compiler_flags (fun _ => none) (fun _ => none)
          true "x86_64-unknown-linux-gnu".data)
    ∧ (output_temp_suffix "x86_64-pc-windows-msvc".data true = some ".dll".data
      ∧ "/LD".data ∈ command_add_compiler_flags (fun _ => none) (fun _ => none)
          true "x86_64-pc-windows-msvc".data) := by
  constructor
  · exact (claim_C8 (fun _ => none) (fun _ => none) "x86_64-unknown-linux-gnu".data).1
      (by decide)
  · have h := (claim_C8 (fun _ => none) (fun _ => none) "x86_64-pc-windows-msvc".data).2
      (by decide)
    exact ⟨h.1, h.2.1 (by decide)⟩

/-- `PathBuf::set_extension("obj")` (run.rs:115-116 and 188-189) for the
generated temp paths (whose last `.`, if any, lies in the final
component): replace the part after the last `.` with `obj`, or append
`.obj` when the path has no `.`. -/
def set_extension_obj (p : List Char) : List Char :=
  if '.' ∈ p then (p.reverse.dropWhile (fun c => !(c == '.'))).reverse ++ "obj".data
  else p ++ ".obj".data

/-- The cleanup list built at run.rs:113-118, before the compiler's exit
status is inspected: the input source file, the output artifact, and for
MSVC the derived intermediate object path. -/
def files_to_remove_list (msvc : Bool) (input_path output_path : List Char) :
    List (List Char) :=
  [input_path, output_path] ++ (if msvc then [set_extension_obj output_path] else [])

/-- The `Assert` value of assert.rs:5-22: the prepared command (modelled by
the program it invokes), the optional cleanup list, and the artifact path. -/
structure AssertModel where
  command : List Char
  files_to_remove : Option (List (List Char))
  output_path : List Char

/-- The tail of `run` (run.rs:120-131) once the compiler has finished with
exit success `success` and (UTF-8-decoded) error stream `stderr`: a
non-success exit returns the `CompilationError` carrying the stderr text
verbatim; success wraps a fresh `Assert` whose command invokes the output
artifact and which owns the cleanup list. -/
def run_after_compile (success : Bool) (stderr : List Char)
    (files : List (List Char)) (output_path : List Char) :
    Except (List Char) AssertModel :=
  if success then Except.ok ⟨output_path, some files, output_path⟩
  else Except.error stderr

/-- Claim C3: on non-zero compiler exit, `run` returns the compilation
error carrying the captured stderr verbatim, returns no `Assert` (so no
run handle or artifact wrapper is produced), and the temporary source file
is in the cleanup list that was built before the status check. -/
theorem claim_C3 (success msvc : Bool) (stderr input_path output_path : List Char)
    (h : success = false) :
    run_after_compile success stderr
        (files_to_remove_list msvc input_path output_path) output_path
      = Except.error stderr
    ∧ (∀ a : AssertModel,
        run_after_compile success stderr
            (files_to_remove_list msvc input_path output_path) output_path
          ≠ Except.ok a)
    ∧ input_path ∈ files_to_remove_list msvc input_path output_path := by
  subst h
  refine ⟨by simp [run_after_compile], ?_, by simp [files_to_remove_list]⟩
  intro a
  simp [run_after_compile]

theorem claim_C3_witness :
    run_after_compile false "undeclared identifier".data
        (files_to_remove_list false "in.c".data "out".data) "out".data
      = Except.error "undeclared identifier".data
    ∧ (∀ a : AssertModel,
        run_after_compile false "undeclared identifier".data
            (files_to_remove_list false "in.c".data "out".data) "out".data
          ≠ Except.ok a)
    ∧ "in.c".data ∈ files_to_remove_list false "in.c".data "out".data :=
  claim_C3 false false "undeclared identifier".data "in.c".data "out".data rfl

/-- `Assert::drop` (assert.rs:44-55) over a cleanup list, the filesystem
abstracted by `exs` (does `fs::metadata` succeed, i.e. the path exists)
and `rmOk` (does `fs::remove_file` succeed): each listed path that exists
is removed in order, a missing path is skipped, and a removal failure
panics (modelled `none`).  On success the paths actually removed are
returned. -/
def assert_drop (exs rmOk : List Char → Bool) : List (List Char) → Option (List (List Char))
  | [] => some []
  | f :: rest =>
    if exs f then
      (if rmOk f then (assert_drop exs rmOk rest).map (fun r => f :: r) else none)
    else assert_drop exs rmOk rest

theorem assert_drop_ok (exs rmOk : List Char → Bool) :
    ∀ files : List (List Char), (∀ f ∈ files, exs f = true → rmOk f = true) →
      assert_drop exs rmOk files = some (files.filter (fun f => exs f)) := by
  intro files
  induction files with
  | nil => intro _; simp [assert_drop]
  | cons f rest ih =>
    intro h
    have ih' := ih (fun g hg => h g (by simp [hg]))
    cases hf : exs f
    · simp [assert_drop, hf, ih', List.filter]
    · have hr : rmOk f = true := h f (by simp) hf
      simp [assert_drop, hf, hr, ih', List.filter]

theorem assert_drop_panic (exs rmOk : List Char → Bool) :
    ∀ files : List (List Char), (∃ f ∈ files, exs f = true ∧ rmOk f = false) →
      assert_drop exs rmOk files = none := by
  intro files
  induction files with
  | nil => intro h; simp at h
  | cons f rest ih =>
    intro h
    rcases h with ⟨g, hg, hex, hrm⟩
    rcases List.mem_cons.mp hg with hgf | hgr
    · subst hgf
      simp [assert_drop, hex, hrm]
    · have ihr := ih ⟨g, hgr, hex, hrm⟩
      cases hf : exs f
      · simp [assert_drop, hf, ihr]
      · cases hr : rmOk f
        · simp [assert_drop, hf, hr]
        · simp [assert_drop, hf, hr, ihr]

/-- Claim C9: at disposal every tracked path that still exists is deleted
and already-absent paths are skipped without error (first part, whose
result also lists exactly the existing tracked paths as removed); a failed
deletion of an existing tracked path is fatal (second part). -/
theorem claim_C9 (exs rmOk : List Char → Bool) (files : List (List Char)) :
    ((∀ f ∈ files, exs f = true → rmOk f = true) →
      assert_drop exs rmOk files = some (files.filter (fun f => exs f)))
    ∧ ((∃ f ∈ files, exs f = true ∧ rmOk f = false) →
      assert_drop exs rmOk files = none) :=
  ⟨assert_drop_ok exs rmOk files, assert_drop_panic exs rmOk files⟩

theorem claim_C9_witness :
    assert_drop (fun p => p == "a.c".data || p == "b".data) (fun _ => true)
        ["a.c".data, "gone".data, "b".data]
      = some (["a.c".data, "gone".data, "b".data].filter
          (fun f => (fun p => p == "a.c".data || p == "b".data) f))
    ∧ assert_drop (fun _ => true) (fun p => !(p == "b".data))
        ["a.c".data, "b".data]
      = none := by
  constructor
  · exact (claim_C9 (fun p => p == "a.c".data || p == "b".data) (fun _ => true)
      ["a.c".data, "gone".data, "b".data]).1 (by decide)
  · exact (claim_C9 (fun _ => true) (fun p => !(p == "b".data))
      ["a.c".data, "b".data]).2 (by decide)


/-- `proc_macro2::Delimiter`. -/
inductive Delim where
  | paren
  | brace
  | bracket
  | dnone

mutual
/-- A `proc_macro2::TokenTree` as consumed by `reconstruct`
(macros/src/lib.rs): identifiers and literals carry their `to_string`
text, punctuation carries its character and whether its spacing is
`Alone` (`alone = true`), and groups carry their delimiter and inner
token sequence. -/
inductive Tok where
  | ident (s : String)
  | punct (c : Char) (alone : Bool)
  | lit (s : String)
  | group (d : Delim) (inner : TokList)

/-- A token stream (`proc_macro2::TokenStream`), as an explicit list so
that the mutual recursion with `Tok` stays structural. -/
inductive TokList where
  | nil
  | cons (head : Tok) (tail : TokList)
end

mutual
/-- Size of a token (groups count their payload), used to bound the fuel
of the reconstructor. -/
def tokSize : Tok → Nat
  | Tok.ident _ => 1
  | Tok.punct _ _ => 1
  | Tok.lit _ => 1
  | Tok.group _ inner => 1 + tokListSize inner

/-- Total size of a token stream. -/
def tokListSize : TokList → Nat
  | TokList.nil => 1
  | TokList.cons t rest => tokSize t + tokListSize rest
end

theorem tokSize_pos (t : Tok) : 1 ≤ tokSize t := by
  cases t <;> simp [tokSize]

theorem tokListSize_pos (l : TokList) : 1 ≤ tokListSize l := by
  cases l with
  | nil => simp [tokListSize]
  | cons t rest => simp [tokListSize]; have := tokSize_pos t; omega

/-- The wrapping applied to a reconstructed group body per delimiter
(macros/src/lib.rs:170-195). -/
def delim_wrap (d : Delim) (inner : List Char) : List Char :=
  match d with
  | Delim.paren => '(' :: inner ++ [')']
  | Delim.brace => '\x7b' :: '\n' :: inner ++ ['\n', '\x7d', '\n']
  | Delim.bracket => '[' :: inner ++ [']']
  | Delim.dnone => inner

/-- The identifiers of the `#define` family (macros/src/lib.rs:108). -/
def defineFamily (i : String) : Bool :=
  i == "define" || i == "ifdef" || i == "else" || i == "endif" || i == "elif"

/-- `reconstruct` (macros/src/lib.rs:32-211), fuelled so the recursion is
structural; `reconstruct` below supplies enough fuel.  The mode `true` is
the inner loop consuming an angle-bracket `#include` payload
(lib.rs:65-86); `false` is the main loop.  `none` models the panics: a
bad opening token after `#include`, input ending inside an angle payload,
a literal or group inside one, and the `#define` family (whose
non-nightly branch panics and whose nightly branch needs line-span
metadata that the token model does not carry). -/
def reconF : Nat → Bool → TokList → Option (List Char)
  | 0, _, _ => none
  | _ + 1, true, TokList.nil => none
  | _ + 1, false, TokList.nil => some []
  | fuel + 1, true, TokList.cons t rest =>
    match t with
    | Tok.punct c _ =>
      if c = '>' then (reconF fuel false rest).map (fun tail => '>' :: '\n' :: tail)
      else (reconF fuel true rest).map (fun tail => c :: tail)
    | Tok.ident s => (reconF fuel true rest).map (fun tail => s.data ++ tail)
    | _ => none
  | fuel + 1, false, TokList.cons t rest =>
    match t with
    | Tok.punct c sp =>
      if c = '#' then
        match rest with
        | TokList.cons (Tok.ident i) rest2 =>
          if i = "include" then
            match rest2 with
            | TokList.cons (Tok.punct o _) rest3 =>
              if o = '<' then
                (reconF fuel true rest3).map (fun tail => '\n' :: ("#include <".data ++ tail))
              else none
            | TokList.cons (Tok.lit s) rest3 =>
              (reconF fuel false rest3).map
                (fun tail => '\n' :: ("#include ".data ++ (s.data ++ '\n' :: tail)))
            | _ => none
          else if defineFamily i then none
          else (reconF fuel false rest).map (fun tail => '\n' :: '#' :: tail)
        | _ => (reconF fuel false rest).map (fun tail => '\n' :: '#' :: tail)
      else if c = ';' then (reconF fuel false rest).map (fun tail => ';' :: '\n' :: tail)
      else (reconF fuel false rest).map
        (fun tail => c :: (if sp then ' ' :: tail else tail))
    | Tok.ident s => (reconF fuel false rest).map (fun tail => s.data ++ ' ' :: tail)
    | Tok.lit s =>
      (reconF fuel false rest).map
        (fun tail => s.data ++ (if s = "\"C\"" then ' ' :: tail else tail))
    | Tok.group d inner =>
      match reconF fuel false inner with
      | none => none
      | some gi => (reconF fuel false rest).map (fun tail => delim_wrap d gi ++ tail)

/-- `reconstruct` (macros/src/lib.rs:32): run the main loop with enough
fuel. -/
def reconstruct (l : TokList) : Option (List Char) :=
  reconF (tokListSize l + 1) false l

theorem reconF_congr :
    ∀ f1 : Nat, ∀ f2 b l, tokListSize l ≤ f1 → tokListSize l ≤ f2 →
      reconF f1 b l = reconF f2 b l := by
  intro f1
  induction f1 with
  | zero =>
    intro f2 b l h1 _
    have := tokListSize_pos l
    omega
  | succ f ih =>
    intro f2 b l h1 h2
    cases f2 with
    | zero =>
      have := tokListSize_pos l
      omega
    | succ g =>
      cases l with
      | nil => cases b <;> rfl
      | cons t rest =>
        have hrest : tokListSize rest ≤ f ∧ tokListSize rest ≤ g := by
          have ht := tokSize_pos t
          simp [tokListSize] at h1 h2
          omega
        cases b
        case true =>
          cases t with
          | ident s =>
            have e := ih g true rest hrest.1 hrest.2
            simp only [reconF, e]
          | punct c sp =>
            have e1 := ih g false rest hrest.1 hrest.2
            have e2 := ih g true rest hrest.1 hrest.2
            simp only [reconF, e1, e2]
          | lit s => simp only [reconF]
          | group d inner => simp only [reconF]
        case false =>
          cases t with
          | ident s =>
            have e := ih g false rest hrest.1 hrest.2
            simp only [reconF, e]
          | lit s =>
            have e := ih g false rest hrest.1 hrest.2
            simp only [reconF, e]
          | group d inner =>
            have hinner : tokListSize inner ≤ f ∧ tokListSize inner ≤ g := by
              have hr := tokListSize_pos rest
              simp [tokListSize, tokSize] at h1 h2
              omega
            have e1 := ih g false inner hinner.1 hinner.2
            have e2 := ih g false rest hrest.1 hrest.2
            simp only [reconF, e1, e2]
          | punct c sp =>
            have er := ih g false rest hrest.1 hrest.2
            cases rest with
            | nil => simp only [reconF, er]
            | cons t2 rest2 =>
              cases t2 with
              | ident i =>
                cases rest2 with
                | nil => simp only [reconF, er]
                | cons t3 rest3 =>
                  have h3 : tokListSize rest3 ≤ f ∧ tokListSize rest3 ≤ g := by
                    have ht3 := tokSize_pos t3
                    simp [tokListSize, tokSize] at h1 h2
                    omega
                  have e3t := ih g true rest3 h3.1 h3.2
                  have e3f := ih g false rest3 h3.1 h3.2
                  cases t3 <;> simp only [reconF, er, e3t, e3f]
              | punct c2 sp2 => simp only [reconF, er]
              | lit s2 => simp only [reconF, er]
              | group d2 inner2 => simp only [reconF, er]

theorem recon_unfold_tail (t : Tok) (rest : TokList) (b : Bool) :
    reconF (tokListSize (TokList.cons t rest)) b rest
      = reconF (tokListSize rest + 1) b rest := by
  apply reconF_congr
  · have h := tokSize_pos t
    have e : tokListSize (TokList.cons t rest) = tokSize t + tokListSize rest := rfl
    omega
  · omega

theorem recon_unfold_inner (d : Delim) (inner rest : TokList) (b : Bool) :
    reconF (tokListSize (TokList.cons (Tok.group d inner) rest)) b inner
      = reconF (tokListSize inner + 1) b inner := by
  apply reconF_congr
  · have h := tokListSize_pos rest
    have e : tokListSize (TokList.cons (Tok.group d inner) rest)
        = (1 + tokListSize inner) + tokListSize rest := rfl
    omega
  · omega

/-- Claim C7: per-token emission rules of `reconstruct` — an identifier
emits its text plus one space; a punctuation other than `;` and `#` emits
its character plus a space exactly when its spacing is `Alone`; `;` emits
`;` plus a newline; a group reconstructs its payload and wraps it
`(...)`, `{\n...\n}\n`, `[...]`, or not at all, per delimiter. -/
theorem claim_C7 (s : String) (c : Char) (sp : Bool) (inner rest : TokList)
    (hc1 : c ≠ '#') (hc2 : c ≠ ';') :
    reconstruct (TokList.cons (Tok.ident s) rest)
      = (reconstruct rest).map (fun tail => s.data ++ ' ' :: tail)
    ∧ reconstruct (TokList.cons (Tok.punct c sp) rest)
      = (reconstruct rest).map (fun tail => c :: (if sp then ' ' :: tail else tail))
    ∧ reconstruct (TokList.cons (Tok.punct ';' sp) rest)
      = (reconstruct rest).map (fun tail => ';' :: '\n' :: tail)
    ∧ reconstruct (TokList.cons (Tok.group Delim.paren inner) rest)
      = (reconstruct inner).bind (fun gi =>
          (reconstruct rest).map (fun tail => '(' :: (gi ++ ')' :: tail)))
    ∧ reconstruct (TokList.cons (Tok.group Delim.brace inner) rest)
      = (reconstruct inner).bind (fun gi =>
          (reconstruct rest).map (fun tail =>
            '\x7b' :: '\n' :: (gi ++ '\n' :: '\x7d' :: '\n' :: tail)))
    ∧ reconstruct (TokList.cons (Tok.group Delim.bracket inner) rest)
      = (reconstruct inner).bind (fun gi =>
          (reconstruct rest).map (fun tail => '[' :: (gi ++ ']' :: tail)))
    ∧ reconstruct (TokList.cons (Tok.group Delim.dnone inner) rest)
      = (reconstruct inner).bind (fun gi =>
          (reconstruct rest).map (fun tail => gi ++ tail)) := by
  refine ⟨?_, ?_, ?_, ?_, ?_, ?_, ?_⟩
  · simp only [reconstruct, reconF, recon_unfold_tail]
  · simp only [reconstruct, reconF, recon_unfold_tail, if_neg hc1, if_neg hc2]
  · simp only [reconstruct, reconF, recon_unfold_tail,
      if_neg (show ¬(';' = '#') by decide)]
    simp
  · simp only [reconstruct, reconF, recon_unfold_tail, recon_unfold_inner]
    cases hrec : reconF (tokListSize inner + 1) false inner with
    | none => rfl
    | some gi => simp [delim_wrap, List.append_assoc]
  · simp only [reconstruct, reconF, recon_unfold_tail, recon_unfold_inner]
    cases hrec : reconF (tokListSize inner + 1) false inner with
    | none => rfl
    | some gi => simp [delim_wrap, List.append_assoc]
  · simp only [reconstruct, reconF, recon_unfold_tail, recon_unfold_inner]
    cases hrec : reconF (tokListSize inner + 1) false inner with
    | none => rfl
    | some gi => simp [delim_wrap, List.append_assoc]
  · simp only [reconstruct, reconF, recon_unfold_tail, recon_unfold_inner]
    cases hrec : reconF (tokListSize inner + 1) false inner with
    | none => rfl
    | some gi => simp [delim_wrap]

theorem claim_C7_witness :
    reconstruct (TokList.cons (Tok.ident "int") TokList.nil)
      = (reconstruct TokList.nil).map (fun tail => "int".data ++ ' ' :: tail)
    ∧ reconstruct (TokList.cons (Tok.punct '+' true) TokList.nil)
      = (reconstruct TokList.nil).map
          (fun tail => '+' :: (if true then ' ' :: tail else tail))
    ∧ reconstruct (TokList.cons (Tok.punct ';' true) TokList.nil)
      = (reconstruct TokList.nil).map (fun tail => ';' :: '\n' :: tail)
    ∧ reconstruct (TokList.cons (Tok.group Delim.paren TokList.nil) TokList.nil)
      = (reconstruct TokList.nil).bind (fun gi =>
          (reconstruct TokList.nil).map (fun tail => '(' :: (gi ++ ')' :: tail)))
    ∧ reconstruct (TokList.cons (Tok.group Delim.brace TokList.nil) TokList.nil)
      = (reconstruct TokList.nil).bind (fun gi =>
          (reconstruct TokList.nil).map (fun tail =>
            '\x7b' :: '\n' :: (gi ++ '\n' :: '\x7d' :: '\n' :: tail)))
    ∧ reconstruct (TokList.cons (Tok.group Delim.bracket TokList.nil) TokList.nil)
      = (reconstruct TokList.nil).bind (fun gi =>
          (reconstruct TokList.nil).map (fun tail => '[' :: (gi ++ ']' :: tail)))
    ∧ reconstruct (TokList.cons (Tok.group Delim.dnone TokList.nil) TokList.nil)
      = (reconstruct TokList.nil).bind (fun gi =>
          (reconstruct TokList.nil).map (fun tail => gi ++ tail)) :=
  claim_C7 "int" '+' true TokList.nil TokList.nil (by decide) (by decide)

/-- Claim C2 (amended): the five-token angle include of `vector`
reconstructs, for every combination of spacing flags, to exactly
`"\n#include <vector>\n"` — the directive text claimed by the spec,
preceded by the single newline the reconstructor always emits before
`#`. -/
theorem claim_C2_amended (s1 s2 s3 : Bool) :
    reconstruct (TokList.cons (Tok.punct '#' s1)
      (TokList.cons (Tok.ident "include")
      (TokList.cons (Tok.punct '<' s2)
      (TokList.cons (Tok.ident "vector")
      (TokList.cons (Tok.punct '>' s3) TokList.nil)))))
      = some "\n#include <vector>\n".data := by
  cases s1 <;> cases s2 <;> cases s3 <;> decide

/-- Claim C2 is false as stated: the reconstruction of the
`#include <vector>` capture emits a leading newline byte, so its output is
not exactly `"#include <vector>\n"`. -/
theorem claim_C2_cex :
    reconstruct (TokList.cons (Tok.punct '#' false)
      (TokList.cons (Tok.ident "include")
      (TokList.cons (Tok.punct '<' false)
      (TokList.cons (Tok.ident "vector")
      (TokList.cons (Tok.punct '>' true) TokList.nil)))))
      = some "\n#include <vector>\n".data
    ∧ reconstruct (TokList.cons (Tok.punct '#' false)
      (TokList.cons (Tok.ident "include")
      (TokList.cons (Tok.punct '<' false)
      (TokList.cons (Tok.ident "vector")
      (TokList.cons (Tok.punct '>' true) TokList.nil)))))
      ≠ some "#include <vector>\n".data := by
  refine ⟨by decide, by decide⟩

/-- Check that every `#` in the character list is immediately preceded by a
newline, `prev` being the character just before the list (so a leading `#`
needs `prev = '\n'`). -/
def okAfter (prev : Char) : List Char → Bool
  | [] => true
  | c :: r => (!(c == '#') || (prev == '\n')) && okAfter c r

/-- Every `#` of the text stands at the beginning of a line (the dummy
previous character `' '` also rejects a leading `#`). -/
def hash_on_own_line (out : List Char) : Bool := okAfter ' ' out

/-- The token text contains no `#`. -/
def noHashStr (s : String) : Bool := decide ('#' ∉ s.data)

/-- Hash-cleanliness of a token stream, mirroring the traversal of
`reconF`: identifier and literal texts carry no `#`, and no `#`
punctuation occurs inside an angle-bracket `#include` payload (mode
`true`).  Top-level `#` punctuation tokens are allowed. -/
def cleanF : Nat → Bool → TokList → Bool
  | 0, _, _ => true
  | _ + 1, true, TokList.nil => true
  | _ + 1, false, TokList.nil => true
  | fuel + 1, true, TokList.cons t rest =>
    match t with
    | Tok.punct c _ =>
      if c = '>' then cleanF fuel false rest
      else !(c == '#') && cleanF fuel true rest
    | Tok.ident s => noHashStr s && cleanF fuel true rest
    | _ => true
  | fuel + 1, false, TokList.cons t rest =>
    match t with
    | Tok.punct c _ =>
      if c = '#' then
        match rest with
        | TokList.cons (Tok.ident i) rest2 =>
          if i = "include" then
            match rest2 with
            | TokList.cons (Tok.punct _ _) rest3 => cleanF fuel true rest3
            | TokList.cons (Tok.lit s) rest3 => noHashStr s && cleanF fuel false rest3
            | _ => true
          else cleanF fuel false rest
        | _ => cleanF fuel false rest
      else cleanF fuel false rest
    | Tok.ident s => noHashStr s && cleanF fuel false rest
    | Tok.lit s => noHashStr s && cleanF fuel false rest
    | Tok.group _ inner => cleanF fuel false inner && cleanF fuel false rest

/-- Hash-cleanliness of a stream, with the same fuel as `reconstruct`. -/
def tokClean (l : TokList) : Bool := cleanF (tokListSize l + 1) false l

theorem okAfter_cons_ne (p c : Char) (r : List Char) (hc : c ≠ '#') :
    okAfter p (c :: r) = okAfter c r := by
  simp [okAfter, hc]

theorem okAfter_append (a b : List Char) (p : Char) :
    okAfter p (a ++ b) = (okAfter p a && okAfter (a.getLastD p) b) := by
  induction a generalizing p with
  | nil => simp [okAfter]
  | cons c t ih =>
    simp only [List.cons_append, okAfter, List.append_eq, ih c, List.getLastD_cons]
    rw [Bool.and_assoc]

theorem okAfter_of_not_mem {a : List Char} (h : '#' ∉ a) (p : Char) :
    okAfter p a = true := by
  induction a generalizing p with
  | nil => rfl
  | cons c t ih =>
    have hc : c ≠ '#' := fun he => h (he ▸ List.mem_cons_self c t)
    rw [okAfter_cons_ne p c t hc]
    exact ih (fun hm => h (List.mem_cons_of_mem c hm)) c

theorem okAfter_append_all {a b : List Char}
    (ha : ∀ p, okAfter p a = true) (hb : ∀ p, okAfter p b = true) (p : Char) :
    okAfter p (a ++ b) = true := by
  rw [okAfter_append, ha p, hb]
  rfl

theorem reconF_hash_ok : ∀ fuel : Nat, ∀ b l out, cleanF fuel b l = true →
    reconF fuel b l = some out → ∀ prev, okAfter prev out = true := by
  intro fuel
  induction fuel with
  | zero =>
    intro b l out _ hrec
    simp [reconF] at hrec
  | succ f ih =>
    intro b l out hclean hrec
    cases b
    case true =>
      cases l with
      | nil => simp [reconF] at hrec
      | cons t rest =>
        cases t with
        | ident s =>
          simp only [reconF] at hrec
          simp only [cleanF, Bool.and_eq_true] at hclean
          rcases hmap : reconF f true rest with _ | tail <;> rw [hmap] at hrec
          · exact absurd hrec (by simp)
          · simp only [Option.map_some', Option.some.injEq] at hrec
            subst hrec
            intro prev
            exact okAfter_append_all
              (okAfter_of_not_mem (of_decide_eq_true hclean.1))
              (ih true rest tail hclean.2 hmap) prev
        | lit s => simp [reconF] at hrec
        | group d inner => simp [reconF] at hrec
        | punct c sp =>
          simp only [reconF] at hrec
          simp only [cleanF] at hclean
          by_cases hc : c = '>'
          · rw [if_pos hc] at hrec hclean
            rcases hmap : reconF f false rest with _ | tail <;> rw [hmap] at hrec
            · exact absurd hrec (by simp)
            · simp only [Option.map_some', Option.some.injEq] at hrec
              subst hrec
              intro prev
              rw [okAfter_cons_ne prev '>' _ (by decide),
                okAfter_cons_ne '>' '\n' _ (by decide)]
              exact ih false rest tail hclean hmap '\n'
          · rw [if_neg hc] at hrec hclean
            simp only [Bool.and_eq_true] at hclean
            rcases hmap : reconF f true rest with _ | tail <;> rw [hmap] at hrec
            · exact absurd hrec (by simp)
            · simp only [Option.map_some', Option.some.injEq] at hrec
              subst hrec
              intro prev
              have hcne : c ≠ '#' := by
                intro he
                rw [he] at hclean
                simp at hclean
              rw [okAfter_cons_ne prev c _ hcne]
              exact ih true rest tail hclean.2 hmap c
    case false =>
      cases l with
      | nil =>
        simp only [reconF, Option.some.injEq] at hrec
        subst hrec
        intro prev
        rfl
      | cons t rest =>
        cases t with
        | ident s =>
          simp only [reconF] at hrec
          simp only [cleanF, Bool.and_eq_true] at hclean
          rcases hmap : reconF f false rest with _ | tail <;> rw [hmap] at hrec
          · exact absurd hrec (by simp)
          · simp only [Option.map_some', Option.some.injEq] at hrec
            subst hrec
            intro prev
            refine okAfter_append_all
              (okAfter_of_not_mem (of_decide_eq_true hclean.1)) ?_ prev
            intro p
            rw [okAfter_cons_ne p ' ' _ (by decide)]
            exact ih false rest tail hclean.2 hmap ' '
        | lit s =>
          simp only [reconF] at hrec
          simp only [cleanF, Bool.and_eq_true] at hclean
          rcases hmap : reconF f false rest with _ | tail <;> rw [hmap] at hrec
          · exact absurd hrec (by simp)
          · simp only [Option.map_some', Option.some.injEq] at hrec
            subst hrec
            intro prev
            refine okAfter_append_all
              (okAfter_of_not_mem (of_decide_eq_true hclean.1)) ?_ prev
            intro p
            by_cases hs : s = "\"C\""
            · rw [if_pos hs, okAfter_cons_ne p ' ' _ (by decide)]
              exact ih false rest tail hclean.2 hmap ' '
            · rw [if_neg hs]
              exact ih false rest tail hclean.2 hmap p
        | group d inner =>
          simp only [reconF] at hrec
          simp only [cleanF, Bool.and_eq_true] at hclean
          rcases hgi : reconF f false inner with _ | gi <;> rw [hgi] at hrec
          · exact absurd hrec (by simp)
          · rcases hmap : reconF f false rest with _ | tail <;> rw [hmap] at hrec
            · exact absurd hrec (by simp)
            · simp only [Option.map_some', Option.some.injEq] at hrec
              subst hrec
              have hgi' := ih false inner gi hclean.1 hgi
              have htail := ih false rest tail hclean.2 hmap
              intro prev
              cases d
              case paren =>
                have eshape : delim_wrap Delim.paren gi ++ tail
                    = '(' :: (gi ++ ')' :: tail) := by
                  simp [delim_wrap]
                rw [eshape, okAfter_cons_ne prev '(' _ (by decide)]
                refine okAfter_append_all hgi' ?_ '('
                intro p
                rw [okAfter_cons_ne p ')' _ (by decide)]
                exact htail ')'
              case brace =>
                have eshape : delim_wrap Delim.brace gi ++ tail
                    = '\x7b' :: '\n' :: (gi ++ '\n' :: '\x7d' :: '\n' :: tail) := by
                  simp [delim_wrap]
                rw [eshape, okAfter_cons_ne prev '\x7b' _ (by decide),
                  okAfter_cons_ne '\x7b' '\n' _ (by decide)]
                refine okAfter_append_all hgi' ?_ '\n'
                intro p
                rw [okAfter_cons_ne p '\n' _ (by decide),
                  okAfter_cons_ne '\n' '\x7d' _ (by decide),
                  okAfter_cons_ne '\x7d' '\n' _ (by decide)]
                exact htail '\n'
              case bracket =>
                have eshape : delim_wrap Delim.bracket gi ++ tail
                    = '[' :: (gi ++ ']' :: tail) := by
                  simp [delim_wrap]
                rw [eshape, okAfter_cons_ne prev '[' _ (by decide)]
                refine okAfter_append_all hgi' ?_ '['
                intro p
                rw [okAfter_cons_ne p ']' _ (by decide)]
                exact htail ']'
              case dnone =>
                show okAfter prev (gi ++ tail) = true
                exact okAfter_append_all hgi' htail prev
        | punct c sp =>
          by_cases hc : c = '#'
          · cases rest with
            | nil =>
              simp only [reconF, if_pos hc] at hrec
              simp only [cleanF, if_pos hc] at hclean
              rcases hmap : reconF f false TokList.nil with _ | tail <;> rw [hmap] at hrec
              · exact absurd hrec (by simp)
              · simp only [Option.map_some', Option.some.injEq] at hrec
                subst hrec
                intro prev
                rw [okAfter_cons_ne prev '\n' _ (by decide)]
                simp only [okAfter, Bool.and_eq_true]
                refine ⟨by decide, ?_⟩
                exact ih false TokList.nil tail hclean hmap '#'
            | cons t2 rest2 =>
              cases t2 with
              | ident i =>
                by_cases hi : i = "include"
                · cases rest2 with
                  | nil =>
                    simp only [reconF, if_pos hc, if_pos hi] at hrec
                    exact absurd hrec (by simp)
                  | cons t3 rest3 =>
                    cases t3 with
                    | ident s3 =>
                      simp only [reconF, if_pos hc, if_pos hi] at hrec
                      exact absurd hrec (by simp)
                    | group d3 inner3 =>
                      simp only [reconF, if_pos hc, if_pos hi] at hrec
                      exact absurd hrec (by simp)
                    | punct o so =>
                      by_cases ho : o = '<'
                      · simp only [reconF, if_pos hc, if_pos hi, if_pos ho] at hrec
                        simp only [cleanF, if_pos hc, if_pos hi] at hclean
                        rcases hmap : reconF f true rest3 with _ | tail <;> rw [hmap] at hrec
                        · exact absurd hrec (by simp)
                        · simp only [Option.map_some', Option.some.injEq] at hrec
                          subst hrec
                          intro prev
                          rw [okAfter_cons_ne prev '\n' _ (by decide)]
                          rw [okAfter_append]
                          have h1 : okAfter '\n' "#include <".data = true := by decide
                          have h2 : ("#include <".data).getLastD '\n' = '<' := by decide
                          rw [h1, h2]
                          exact ih true rest3 tail hclean hmap '<'
                      · simp only [reconF, if_pos hc, if_pos hi, if_neg ho] at hrec
                        exact absurd hrec (by simp)
                    | lit s3 =>
                      simp only [reconF, if_pos hc, if_pos hi] at hrec
                      simp only [cleanF, if_pos hc, if_pos hi, Bool.and_eq_true] at hclean
                      rcases hmap : reconF f false rest3 with _ | tail <;> rw [hmap] at hrec
                      · exact absurd hrec (by simp)
                      · simp only [Option.map_some', Option.some.injEq] at hrec
                        subst hrec
                        intro prev
                        rw [okAfter_cons_ne prev '\n' _ (by decide)]
                        rw [okAfter_append]
                        have h1 : okAfter '\n' "#include ".data = true := by decide
                        have h2 : ("#include ".data).getLastD '\n' = ' ' := by decide
                        rw [h1, h2]
                        refine okAfter_append_all
                          (okAfter_of_not_mem (of_decide_eq_true hclean.1)) ?_ ' '
                        intro p
                        rw [okAfter_cons_ne p '\n' _ (by decide)]
                        exact ih false rest3 tail hclean.2 hmap '\n'
                · by_cases hd : defineFamily i = true
                  · simp only [reconF, if_pos hc, if_neg hi, if_pos hd] at hrec
                    exact absurd hrec (by simp)
                  · simp only [reconF, if_pos hc, if_neg hi, if_neg hd] at hrec
                    simp only [cleanF, if_pos hc, if_neg hi] at hclean
                    rcases hmap : reconF f false (TokList.cons (Tok.ident i) rest2)
                        with _ | tail <;> rw [hmap] at hrec
                    · exact absurd hrec (by simp)
                    · simp only [Option.map_some', Option.some.injEq] at hrec
                      subst hrec
                      intro prev
                      rw [okAfter_cons_ne prev '\n' _ (by decide)]
                      simp only [okAfter, Bool.and_eq_true]
                      refine ⟨by decide, ?_⟩
                      exact ih false (TokList.cons (Tok.ident i) rest2) tail hclean hmap '#'
              | punct c2 sp2 =>
                simp only [reconF, if_pos hc] at hrec
                simp only [cleanF, if_pos hc] at hclean
                rcases hmap : reconF f false (TokList.cons (Tok.punct c2 sp2) rest2)
                    with _ | tail <;> rw [hmap] at hrec
                · exact absurd hrec (by simp)
                · simp only [Option.map_some', Option.some.injEq] at hrec
                  subst hrec
                  intro prev
                  rw [okAfter_cons_ne prev '\n' _ (by decide)]
                  simp only [okAfter, Bool.and_eq_true]
                  refine ⟨by decide, ?_⟩
                  exact ih false (TokList.cons (Tok.punct c2 sp2) rest2) tail hclean hmap '#'
              | lit s2 =>
                simp only [reconF, if_pos hc] at hrec
                simp only [cleanF, if_pos hc] at hclean
                rcases hmap : reconF f false (TokList.cons (Tok.lit s2) rest2)
                    with _ | tail <;> rw [hmap] at hrec
                · exact absurd hrec (by simp)
                · simp only [Option.map_some', Option.some.injEq] at hrec
                  subst hrec
                  intro prev
                  rw [okAfter_cons_ne prev '\n' _ (by decide)]
                  simp only [okAfter, Bool.and_eq_true]
                  refine ⟨by decide, ?_⟩
                  exact ih false (TokList.cons (Tok.lit s2) rest2) tail hclean hmap '#'
              | group d2 inner2 =>
                simp only [reconF, if_pos hc] at hrec
                simp only [cleanF, if_pos hc] at hclean
                rcases hmap : reconF f false (TokList.cons (Tok.group d2 inner2) rest2)
                    with _ | tail <;> rw [hmap] at hrec
                · exact absurd hrec (by simp)
                · simp only [Option.map_some', Option.some.injEq] at hrec
                  subst hrec
                  intro prev
                  rw [okAfter_cons_ne prev '\n' _ (by decide)]
                  simp only [okAfter, Bool.and_eq_true]
                  refine ⟨by decide, ?_⟩
                  exact ih false (TokList.cons (Tok.group d2 inner2) rest2) tail hclean hmap '#'
          · by_cases hsemi : c = ';'
            · simp only [reconF, if_neg hc, if_pos hsemi] at hrec
              simp only [cleanF, if_neg hc] at hclean
              rcases hmap : reconF f false rest with _ | tail <;> rw [hmap] at hrec
              · exact absurd hrec (by simp)
              · simp only [Option.map_some', Option.some.injEq] at hrec
                subst hrec
                intro prev
                rw [okAfter_cons_ne prev ';' _ (by decide),
                  okAfter_cons_ne ';' '\n' _ (by decide)]
                exact ih false rest tail hclean hmap '\n'
            · simp only [reconF, if_neg hc, if_neg hsemi] at hrec
              simp only [cleanF, if_neg hc] at hclean
              rcases hmap : reconF f false rest with _ | tail <;> rw [hmap] at hrec
              · exact absurd hrec (by simp)
              · simp only [Option.map_some', Option.some.injEq] at hrec
                subst hrec
                intro prev
                rw [okAfter_cons_ne prev c _ hc]
                cases sp
                · simp only [Bool.false_eq_true, if_false]
                  exact ih false rest tail hclean hmap c
                · simp only [if_true]
                  rw [okAfter_cons_ne c ' ' _ (by decide)]
                  exact ih false rest tail hclean hmap ' '

/-- Claim C10 (amended): for a hash-clean token stream — no `#` inside
identifier or literal text and no `#` punctuation inside an angle-bracket
include payload — every `#` in the reconstructed text is immediately
preceded by an emitted newline; the leading-newline-before-`#` rule of the
main loop (macros/src/lib.rs:44-46) guarantees this for every top-level
`#` punctuation token, including one followed by no recognized directive
keyword. -/
theorem claim_C10_amended (l : TokList) (out : List Char)
    (hc : tokClean l = true) (hr : reconstruct l = some out) :
    hash_on_own_line out = true :=
  reconF_hash_ok (tokListSize l + 1) false l out hc hr ' '

theorem claim_C10_amended_witness : hash_on_own_line "\n#a ".data = true :=
  claim_C10_amended
    (TokList.cons (Tok.punct '#' true) (TokList.cons (Tok.ident "a") TokList.nil))
    "\n#a ".data (by decide) (by decide)

/-- Claim C10 is false as stated: a `#` punctuation token inside an
angle-bracket include payload is copied raw (macros/src/lib.rs:74), with
no newline emitted before it, so not every emitted `#` starts a line. -/
theorem claim_C10_cex :
    reconstruct (TokList.cons (Tok.punct '#' false)
      (TokList.cons (Tok.ident "include")
      (TokList.cons (Tok.punct '<' false)
      (TokList.cons (Tok.punct '#' false)
      (TokList.cons (Tok.ident "x")
      (TokList.cons (Tok.punct '>' false) TokList.nil))))))
      = some "\n#include <#x>\n".data
    ∧ hash_on_own_line "\n#include <#x>\n".data = false := by
  refine ⟨by decide, by decide⟩
